import Mathlib

/-!
Shallow embedding of the analytics engine in `src/utils/logic.ts` (the
canonical snapshot, lines 148-324) together with the empty-collection
defaults of `src/hooks/useTasks.ts` (`INITIAL_METRICS`).

JavaScript numbers are modelled as exact rationals (`ℚ`); the values the
engine manipulates (revenues, hours, millisecond timestamps, small integer
day counts) are exactly representable, and the spec explicitly allows the
platform's float-to-fixed rounding, so the rational idealisation is
faithful.  The non-finite values `NaN`/`±∞` that `computeROI` guards
against are modelled by the sum type `JSNum`.  Calendar timestamps carry
both their epoch-millisecond value (`Date.prototype.getTime`) and their
civil calendar components (`getFullYear`/`getMonth`/`getDate`).
-/

namespace TaskGlitch

/-- A JavaScript number: either a finite value (modelled exactly as a
rational) or one of the non-finite values `NaN`, `+∞`, `-∞`. -/
inductive JSNum where
  | fin (q : ℚ)
  | nan
  | posInf
  | negInf
deriving DecidableEq

/-- `Number.isFinite`. -/
def JSNum.isFinite : JSNum → Bool
  | .fin _ => true
  | _ => false

/-- `Number(x.toFixed(2))`: round to two decimal places, ties to the larger
value, per the ECMAScript `toFixed` specification. -/
def jsToFixed2 (q : ℚ) : ℚ := ((⌊q * 100 + 1 / 2⌋ : ℤ) : ℚ) / 100

/-- `Math.round`: nearest integer, ties toward positive infinity. -/
def jsRound (q : ℚ) : ℤ := ⌊q + 1 / 2⌋

/-- `computeROI` (logic.ts lines 148-153): `null` when either operand is
non-finite or `timeTaken <= 0`; otherwise `revenue / timeTaken` to two
decimal places. -/
def computeROI : JSNum → JSNum → Option ℚ
  | .fin revenue, .fin timeTaken =>
      if timeTaken ≤ 0 then none else some (jsToFixed2 (revenue / timeTaken))
  | _, _ => none

/-- `Task['priority']`. -/
inductive Priority where
  | High
  | Medium
  | Low
deriving DecidableEq

/-- `Task['status']`. -/
inductive Status where
  | Todo
  | InProgress
  | Done
deriving DecidableEq

/-- `computePriorityWeight` (logic.ts lines 155-164): `High → 3`,
`Medium → 2`, default case `1`. -/
def computePriorityWeight : Priority → ℕ
  | .High => 3
  | .Medium => 2
  | _ => 1

/-- Civil calendar components of a timestamp, as returned by the `Date`
accessors `getFullYear` / `getMonth`+1 / `getDate` (month here is 1-12). -/
structure CivilDate where
  year : ℤ
  month : ℤ
  day : ℤ
deriving DecidableEq

/-- A timestamp: its epoch-millisecond value (`getTime`) and its civil
calendar components. -/
structure Timestamp where
  ms : ℤ
  date : CivilDate
deriving DecidableEq

/-- A task record (`src/types`).  `completedAt` is optional; absent models
both `undefined` and the other falsy strings the source guards with
`if (!t.completedAt)`. -/
structure Task where
  id : String
  title : String
  revenue : ℚ
  timeTaken : ℚ
  priority : Priority
  status : Status
  notes : String
  createdAt : ℤ
  completedAt : Option Timestamp
deriving DecidableEq

/-- `DerivedTask` = `Task` plus the computed `roi` and `priorityWeight`. -/
structure DerivedTask where
  id : String
  title : String
  revenue : ℚ
  timeTaken : ℚ
  priority : Priority
  status : Status
  notes : String
  createdAt : ℤ
  completedAt : Option Timestamp
  roi : Option ℚ
  priorityWeight : ℕ
deriving DecidableEq

/-- `withDerived` (logic.ts lines 166-172). -/
def withDerived (t : Task) : DerivedTask :=
  { id := t.id, title := t.title, revenue := t.revenue, timeTaken := t.timeTaken
    priority := t.priority, status := t.status, notes := t.notes
    createdAt := t.createdAt, completedAt := t.completedAt
    roi := computeROI (.fin t.revenue) (.fin t.timeTaken)
    priorityWeight := computePriorityWeight t.priority }

/-- `a.roi ?? -Infinity` (logic.ts lines 176-177): a missing ROI compares
below every finite ROI, i.e. it is the bottom element of `WithBot ℚ`. -/
def roiKey (t : DerivedTask) : WithBot ℚ :=
  match t.roi with
  | some q => (q : WithBot ℚ)
  | none => ⊥

/-- The sort comparator of `sortTasks` (logic.ts lines 175-186), read as
`comparator a b ≤ 0` (`a` sorts before or ties with `b`): ROI descending,
then `priorityWeight` descending, then `title` ascending
(`localeCompare` modelled as the lexicographic order on strings). -/
def sortLe (a b : DerivedTask) : Bool :=
  if roiKey b ≠ roiKey a then decide (roiKey b < roiKey a)
  else if b.priorityWeight ≠ a.priorityWeight then decide (b.priorityWeight < a.priorityWeight)
  else decide (a.title ≤ b.title)

/-- The same comparator read strictly (`comparator a b < 0`,
`a` sorts strictly before `b`). -/
def sortLt (a b : DerivedTask) : Bool :=
  if roiKey b ≠ roiKey a then decide (roiKey b < roiKey a)
  else if b.priorityWeight ≠ a.priorityWeight then decide (b.priorityWeight < a.priorityWeight)
  else decide (a.title < b.title)

/-- `sortTasks` (logic.ts lines 174-187): `[...tasks].sort(comparator)`.
`Array.prototype.sort` is a stable sort driven by the comparator, modelled
as a stable insertion sort on the non-strict comparator order; the input
list is untouched (the embedding is pure). -/
def sortTasks (tasks : List DerivedTask) : List DerivedTask :=
  List.insertionSort (fun a b => sortLe a b = true) tasks

/-- The lexicographic sort key realised by the comparator: ROI descending,
priority weight descending, title ascending. -/
def sortKey (t : DerivedTask) : (WithBot ℚ)ᵒᵈ ×ₗ (ℕᵒᵈ ×ₗ String) :=
  toLex (OrderDual.toDual (roiKey t), toLex (OrderDual.toDual t.priorityWeight, t.title))

/-- `computeTotalRevenue` (logic.ts lines 189-191): sum of `revenue` over
tasks with `status === 'Done'`. -/
def computeTotalRevenue (tasks : List Task) : ℚ :=
  (tasks.filter (fun t => decide (t.status = .Done))).foldl (fun sum t => sum + t.revenue) 0

/-- `computeTotalTimeTaken` (logic.ts lines 193-195). -/
def computeTotalTimeTaken (tasks : List Task) : ℚ :=
  tasks.foldl (fun sum t => sum + t.timeTaken) 0

/-- `computeTimeEfficiency` (logic.ts lines 197-201). -/
def computeTimeEfficiency (tasks : List Task) : ℚ :=
  if tasks.length = 0 then 0
  else ((tasks.filter (fun t => decide (t.status = .Done))).length / (tasks.length : ℚ)) * 100

/-- `computeRevenuePerHour` (logic.ts lines 203-207). -/
def computeRevenuePerHour (tasks : List Task) : ℚ :=
  let revenue := computeTotalRevenue tasks
  let time := computeTotalTimeTaken tasks
  if 0 < time then revenue / time else 0

/-- `computeAverageROI` (logic.ts lines 209-215): mean of the non-null ROI
values (a non-null ROI is always finite, so the `Number.isFinite` filter
keeps exactly the non-null values). -/
def computeAverageROI (tasks : List Task) : ℚ :=
  let rois := tasks.filterMap (fun t => computeROI (.fin t.revenue) (.fin t.timeTaken))
  if rois.length = 0 then 0 else (rois.foldl (fun s r => s + r) 0) / rois.length

/-- The three performance grades. -/
inductive Grade where
  | Excellent
  | Good
  | NeedsImprovement
deriving DecidableEq

/-- `computePerformanceGrade` (logic.ts lines 217-223). -/
def computePerformanceGrade (avgROI : ℚ) : Grade :=
  if 500 < avgROI then .Excellent
  else if 200 ≤ avgROI then .Good
  else .NeedsImprovement

/-- `FunnelCounts` (logic.ts lines 227-231). -/
structure FunnelCounts where
  todo : ℕ
  inProgress : ℕ
  done : ℕ
deriving DecidableEq

/-- `computeFunnel` (logic.ts lines 233-239). -/
def computeFunnel (tasks : List Task) : FunnelCounts :=
  { todo := (tasks.filter (fun t => decide (t.status = .Todo))).length
    inProgress := (tasks.filter (fun t => decide (t.status = .InProgress))).length
    done := (tasks.filter (fun t => decide (t.status = .Done))).length }

/-- `Metrics` (`src/types`, consumed by `useTasks.ts`). -/
structure Metrics where
  totalRevenue : ℚ
  totalTimeTaken : ℚ
  timeEfficiencyPct : ℚ
  revenuePerHour : ℚ
  averageROI : ℚ
  performanceGrade : Grade
deriving DecidableEq

/-- `INITIAL_METRICS` (useTasks.ts lines 27-34): the metrics returned for an
empty task collection. -/
def INITIAL_METRICS : Metrics :=
  { totalRevenue := 0, totalTimeTaken := 0, timeEfficiencyPct := 0
    revenuePerHour := 0, averageROI := 0, performanceGrade := .NeedsImprovement }

/-- Days from the epoch 1970-01-01 of a proleptic Gregorian civil date
(Hinnant's `days_from_civil` algorithm), with the year taken literally --
the ECMAScript `Date.UTC` two-digit-year remap is modelled separately by
`dateUTCDays`. -/
def daysFromCivil (c : CivilDate) : ℤ :=
  let y := if c.month ≤ 2 then c.year - 1 else c.year
  let era := y / 400
  let yoe := y - era * 400
  let mp := if c.month ≤ 2 then c.month + 9 else c.month - 3
  let doy := (153 * mp + 2) / 5 + c.day - 1
  let doe := yoe * 365 + yoe / 4 - yoe / 100 + doy
  era * 146097 + doe - 719468

/-- Civil Gregorian date of an epoch day number (the UTC accessors of a
`Date` holding that UTC midnight; Hinnant's `civil_from_days`). -/
def civilFromDays (z : ℤ) : CivilDate :=
  let zs := z + 719468
  let era := zs / 146097
  let doe := zs - era * 146097
  let yoe := (doe - doe / 1460 + doe / 36524 - doe / 146096) / 365
  let y := yoe + era * 400
  let doy := doe - (365 * yoe + yoe / 4 - yoe / 100)
  let mp := (5 * doy + 2) / 153
  let d := doy - (153 * mp + 2) / 5 + 1
  let m := if mp < 10 then mp + 3 else mp - 9
  ⟨if m ≤ 2 then y + 1 else y, m, d⟩

/-- ECMAScript `MakeFullYear`: `Date.UTC` (and the `Date` constructor)
remap an integer year argument in 0-99 to `1900 + year`. -/
def makeFullYear (y : ℤ) : ℤ :=
  if 0 ≤ y ∧ y ≤ 99 then 1900 + y else y

/-- `Date.UTC(y, m-1, d) / 86400000`: epoch day number of the civil date,
after the ECMAScript two-digit-year remap of the year argument. -/
def dateUTCDays (y m d : ℤ) : ℤ :=
  daysFromCivil ⟨makeFullYear y, m, d⟩

/-- `getWeekNumber` (logic.ts lines 318-324), on the civil date components
of the input `Date`: the date is re-formed with `Date.UTC` (which remaps
years 0-99 to 1900-1999), `Date.getUTCDay() || 7` gives the ISO day of
week, the date is shifted to the Thursday of its week, and the week number
is `Math.ceil` of `(daysSinceJan1 + 1) / 7`, where the year start is again
built with `Date.UTC` from the Thursday's year. -/
def getWeekNumber (c : CivilDate) : ℤ :=
  let z := dateUTCDays c.year c.month c.day
  let w := (z + 4) % 7
  let day := if w = 0 then 7 else w
  let thu := z + 4 - day
  let yearStart := dateUTCDays (civilFromDays thu).year 1 1
  Int.ceil (((thu - yearStart + 1 : ℤ) : ℚ) / 7)

/-- The Thursday of a date's Monday-based week, as an epoch day number
(ISO day of week is `(z + 3) % 7 + 1`, Monday = 1 … Sunday = 7). -/
def isoThursday (c : CivilDate) : ℤ :=
  let z := daysFromCivil c
  z + 4 - ((z + 3) % 7 + 1)

/-- The ISO-8601 (Thursday-anchored) week number, written from the spec's
definition: take the Thursday of the date's Monday-based week; its ordinal
day number within its own year, divided by 7 and rounded up, is the week
number (equivalently, the number of Thursdays of that year up to and
including it). -/
def isoWeekNumber (c : CivilDate) : ℤ :=
  let thursday := isoThursday c
  let ordinal := thursday - daysFromCivil ⟨(civilFromDays thursday).year, 1, 1⟩ + 1
  Int.ceil ((ordinal : ℚ) / 7)

/-- The bucket key `` `${d.getFullYear()}-W${getWeekNumber(d)}` ``
(logic.ts line 249). -/
def weekKey (c : CivilDate) : String :=
  toString c.year ++ "-W" ++ toString (getWeekNumber c)

/-- A weekly throughput bucket (logic.ts lines 241-243). -/
structure WeekBucket where
  week : String
  count : ℕ
  revenue : ℚ
deriving DecidableEq

/-- One `map.set(key, {count: prev.count + 1, revenue: prev.revenue + r})`
step on the insertion-ordered map (logic.ts lines 250-254): an existing
key is updated in place, a new key is appended at the end. -/
def bumpWeek : List WeekBucket → String → ℚ → List WeekBucket
  | [], k, r => [⟨k, 1, r⟩]
  | b :: rest, k, r =>
      if b.week = k then ⟨b.week, b.count + 1, b.revenue + r⟩ :: rest
      else b :: bumpWeek rest k r

/-- One `tasks.forEach` step of `computeThroughputByWeek`
(logic.ts lines 246-255): a task without `completedAt` is skipped,
otherwise its bucket is bumped. -/
def throughStep (m : List WeekBucket) (t : Task) : List WeekBucket :=
  match t.completedAt with
  | none => m
  | some ts => bumpWeek m (weekKey ts.date) t.revenue

/-- `computeThroughputByWeek` (logic.ts lines 241-262): fold every task
with a defined `completedAt` into its week bucket; the final
`Array.from(map.entries()).map(...)` only reshapes the entries, so the
accumulated list is already the output. -/
def computeThroughputByWeek (tasks : List Task) : List WeekBucket :=
  tasks.foldl throughStep []

/-- The bucket key of a task, when it has one. -/
def taskWeekKey (t : Task) : Option String :=
  t.completedAt.map (fun ts => weekKey ts.date)

/-- Number of tasks with a defined `completedAt` falling under key `k`. -/
def weekCount (tasks : List Task) (k : String) : ℕ :=
  (tasks.filter (fun t => decide (taskWeekKey t = some k))).length

/-- Total revenue of the tasks with a defined `completedAt` under key `k`. -/
def weekRevenue (tasks : List Task) (k : String) : ℚ :=
  ((tasks.filter (fun t => decide (taskWeekKey t = some k))).map Task.revenue).sum

/-- Sum of the counts recorded in the map for key `k`. -/
def countIn : List WeekBucket → String → ℕ
  | [], _ => 0
  | b :: rest, k => (if b.week = k then b.count else 0) + countIn rest k

/-- Sum of the revenues recorded in the map for key `k`. -/
def revIn : List WeekBucket → String → ℚ
  | [], _ => 0
  | b :: rest, k => (if b.week = k then b.revenue else 0) + revIn rest k

/-- A `{week, revenue}` record: the shape `computeForecast` consumes and
produces (logic.ts lines 264-267). -/
structure WeekRev where
  week : String
  revenue : ℚ
deriving DecidableEq

/-- `computeForecast` (logic.ts lines 264-277); the `horizon` parameter
defaults to 4 at the call sites. -/
def computeForecast (weekly : List WeekRev) (horizon : ℕ) : List WeekRev :=
  if weekly.length < 2 then []
  else
    let avg := (weekly.foldl (fun s w => s + w.revenue) (0 : ℚ)) / weekly.length
    (List.range horizon).map (fun i => ⟨"+" ++ toString (i + 1), max 0 avg⟩)

/-- `daysBetween` (logic.ts lines 306-310), on the `getTime` values of the
two ISO strings: `Math.max(0, Math.round((b - a) / 86400000))`. -/
def daysBetween (a b : ℤ) : ℤ :=
  max 0 (jsRound (((b - a : ℤ) : ℚ) / 86400000))

/-- `average` (logic.ts lines 314-316). -/
def average (arr : List ℤ) : ℚ :=
  if arr.length = 0 then 0 else ((arr.foldl (fun s v => s + v) 0 : ℤ) : ℚ) / arr.length

/-- The `groups[p]` array built by `computeVelocityByPriority`
(logic.ts lines 282-292): the `daysBetween` values of the tasks of
priority `p` that have a defined `completedAt`, in task order. -/
def velocityGroup (tasks : List Task) (p : Priority) : List ℤ :=
  tasks.filterMap
    (fun t =>
      match t.completedAt with
      | some ts => if t.priority = p then some (daysBetween t.createdAt ts.ms) else none
      | none => none)

/-- `computeVelocityByPriority` (logic.ts lines 279-299), as the mapping
from a priority category to its `avgDays` value. -/
def computeVelocityByPriority (tasks : List Task) (p : Priority) : ℚ :=
  average (velocityGroup tasks p)

/-- `computeWeightedPipeline` (logic.ts lines 301-304). -/
def statusWeight : Status → ℚ
  | .Todo => 1 / 10
  | .InProgress => 1 / 2
  | .Done => 1

/-- `computeWeightedPipeline` (logic.ts lines 301-304): status-weighted
expected revenue. -/
def computeWeightedPipeline (tasks : List Task) : ℚ :=
  tasks.foldl (fun s t => s + t.revenue * statusWeight t.status) 0

/-! ## Helper lemmas -/

/-- Folding `+ f x` over a list from `a` is `a` plus the sum of the images. -/
theorem foldl_add_map {α : Type} (f : α → ℚ) (l : List α) (a : ℚ) :
    l.foldl (fun s x => s + f x) a = a + (l.map f).sum := by
  induction l generalizing a with
  | nil => simp
  | cons x xs ih => simp only [List.foldl_cons, List.map_cons, List.sum_cons, ih]; ring

/-- Integer version of `foldl_add_map` for the identity. -/
theorem foldl_add_int (l : List ℤ) (a : ℤ) :
    l.foldl (fun s v => s + v) a = a + l.sum := by
  induction l generalizing a with
  | nil => simp
  | cons x xs ih => simp only [List.foldl_cons, List.sum_cons, ih]; ring

/-! ## C1: computeROI -/

/-- C1: `computeROI(revenue, timeTaken)` returns `null` if and only if
`timeTaken ≤ 0` or either argument is non-finite; in every other case it
returns `revenue / timeTaken` rounded to exactly 2 decimal places.  (The
embedding is a total function, so no exception can be raised.) -/
theorem computeROI_spec :
    (∀ r t : JSNum, computeROI r t = none ↔
      (r.isFinite = false ∨ t.isFinite = false ∨ ∃ q : ℚ, t = JSNum.fin q ∧ q ≤ 0)) ∧
    (∀ a b : ℚ, 0 < b →
      computeROI (JSNum.fin a) (JSNum.fin b) = some (jsToFixed2 (a / b))) := by
  constructor
  · intro r t
    cases r <;> cases t <;> simp [computeROI, JSNum.isFinite]
  · intro a b hb
    simp [computeROI, not_le.mpr hb]

/-- Witness for C1 at `revenue = 5`, `timeTaken = 2`. -/
theorem computeROI_spec_witness :
    computeROI (JSNum.fin 5) (JSNum.fin 2) = some (jsToFixed2 (5 / 2)) :=
  computeROI_spec.2 5 2 (by decide)

/-! ## C4: computeFunnel -/

/-- C4: the three funnel counts sum to the size of the collection. -/
theorem computeFunnel_sum (tasks : List Task) :
    (computeFunnel tasks).todo + (computeFunnel tasks).inProgress + (computeFunnel tasks).done
      = tasks.length := by
  induction tasks with
  | nil => rfl
  | cons t ts ih =>
      simp only [computeFunnel, List.filter_cons, List.length_cons] at *
      cases t.status <;> simp_all <;> omega

/-! ## C7: computePerformanceGrade -/

/-- C7: `computePerformanceGrade` returns `Excellent` exactly when
`avgROI > 500`, `Good` exactly when `200 ≤ avgROI ≤ 500`, and
`Needs Improvement` otherwise; both boundaries grade `Good`. -/
theorem computePerformanceGrade_spec (a : ℚ) :
    (computePerformanceGrade a = Grade.Excellent ↔ 500 < a) ∧
    (computePerformanceGrade a = Grade.Good ↔ 200 ≤ a ∧ a ≤ 500) ∧
    (computePerformanceGrade a = Grade.NeedsImprovement ↔ a < 200) ∧
    computePerformanceGrade 500 = Grade.Good ∧
    computePerformanceGrade 200 = Grade.Good := by
  refine ⟨?_, ?_, ?_, by decide, by decide⟩ <;>
    · unfold computePerformanceGrade
      split_ifs with h1 h2 <;> simp_all <;> linarith

/-! ## C8: computeTotalRevenue -/

/-- C8: `computeTotalRevenue` is the sum of `revenue` over exactly the
`Done` tasks, and appending a non-`Done` task leaves it unchanged. -/
theorem computeTotalRevenue_spec :
    (∀ tasks : List Task,
      computeTotalRevenue tasks
        = ((tasks.filter (fun t => decide (t.status = Status.Done))).map Task.revenue).sum) ∧
    (∀ (tasks : List Task) (t : Task), t.status ≠ Status.Done →
      computeTotalRevenue (tasks ++ [t]) = computeTotalRevenue tasks) := by
  have h1 : ∀ tasks : List Task,
      computeTotalRevenue tasks
        = ((tasks.filter (fun t => decide (t.status = Status.Done))).map Task.revenue).sum := by
    intro tasks
    unfold computeTotalRevenue
    rw [foldl_add_map Task.revenue]
    ring
  refine ⟨h1, fun tasks t ht => ?_⟩
  rw [h1, h1, List.filter_append]
  simp [List.filter_cons, ht]

/-- Witness for C8: appending a `Todo` task with revenue 77 leaves the
total unchanged. -/
theorem computeTotalRevenue_spec_witness :
    computeTotalRevenue
        ([⟨"a", "A", 100, 10, Priority.High, Status.Done, "", 0, none⟩] ++
          [⟨"b", "B", 77, 5, Priority.Low, Status.Todo, "", 0, none⟩])
      = computeTotalRevenue [⟨"a", "A", 100, 10, Priority.High, Status.Done, "", 0, none⟩] :=
  computeTotalRevenue_spec.2
    [⟨"a", "A", 100, 10, Priority.High, Status.Done, "", 0, none⟩]
    ⟨"b", "B", 77, 5, Priority.Low, Status.Todo, "", 0, none⟩
    (by decide)

/-! ## C9: empty-collection defaults -/

/-- C9: every aggregate applied to the empty collection returns its
documented default, and those defaults are exactly `INITIAL_METRICS`. -/
theorem emptyCollectionDefaults :
    computeTotalRevenue [] = 0 ∧ computeTotalTimeTaken [] = 0 ∧
    computeTimeEfficiency [] = 0 ∧ computeRevenuePerHour [] = 0 ∧
    computeAverageROI [] = 0 ∧
    computePerformanceGrade (computeAverageROI []) = Grade.NeedsImprovement ∧
    computeThroughputByWeek [] = [] ∧
    (∀ horizon : ℕ, computeForecast [] horizon = []) ∧
    (∀ p : Priority, computeVelocityByPriority [] p = 0) ∧
    INITIAL_METRICS
      = ⟨computeTotalRevenue [], computeTotalTimeTaken [], computeTimeEfficiency [],
          computeRevenuePerHour [], computeAverageROI [],
          computePerformanceGrade (computeAverageROI [])⟩ := by
  refine ⟨rfl, rfl, rfl, by decide, rfl, by decide, rfl, fun horizon => ?_,
    fun p => rfl, by decide⟩
  simp [computeForecast]

/-! ## C5: computeForecast -/

/-- C5: with fewer than 2 buckets the forecast is empty; otherwise it is
exactly `horizon` entries labelled `"+1"` … `"+horizon"`, each carrying
`max 0` of the mean revenue of the input buckets. -/
theorem computeForecast_spec :
    (∀ (weekly : List WeekRev) (horizon : ℕ), weekly.length < 2 →
        computeForecast weekly horizon = []) ∧
    (∀ (weekly : List WeekRev) (horizon : ℕ), 2 ≤ weekly.length →
        computeForecast weekly horizon
          = (List.range horizon).map
              (fun i => ⟨"+" ++ toString (i + 1),
                max 0 (((weekly.map WeekRev.revenue).sum) / weekly.length)⟩)) ∧
    computeForecast [⟨"W1", 100⟩, ⟨"W2", 300⟩] 2 = [⟨"+1", 200⟩, ⟨"+2", 200⟩] := by
  have hmean : ∀ (weekly : List WeekRev) (horizon : ℕ), 2 ≤ weekly.length →
      computeForecast weekly horizon
        = (List.range horizon).map
            (fun i => ⟨"+" ++ toString (i + 1),
              max 0 (((weekly.map WeekRev.revenue).sum) / weekly.length)⟩) := by
    intro weekly horizon hge
    unfold computeForecast
    rw [if_neg (by omega), foldl_add_map WeekRev.revenue]
    simp
  refine ⟨fun weekly horizon hlt => by simp [computeForecast, hlt], hmean, ?_⟩
  rw [hmean [⟨"W1", 100⟩, ⟨"W2", 300⟩] 2 (by decide)]
  norm_num [List.range_succ, max_def]
  exact ⟨rfl, rfl⟩

/-- Witness for C5: a single bucket forecasts nothing, and revenues
`[100, 300]` with horizon 2 forecast a flat 200 for weeks `"+1"`, `"+2"`. -/
theorem computeForecast_spec_witness :
    computeForecast [⟨"W1", 100⟩] 4 = [] ∧
    computeForecast [⟨"W1", 100⟩, ⟨"W2", 300⟩] 2 = [⟨"+1", 200⟩, ⟨"+2", 200⟩] :=
  ⟨computeForecast_spec.1 [⟨"W1", 100⟩] 4 (by decide), computeForecast_spec.2.2⟩

/-! ## C6: computeVelocityByPriority -/

/-- C6: every priority category reports the arithmetic mean of
`max(0, round((completedAt − createdAt) in days))` over its tasks with a
defined `completedAt`; a category with no such tasks reports 0; every
reported value is nonnegative. -/
theorem computeVelocityByPriority_spec :
    (∀ (tasks : List Task) (p : Priority), 0 ≤ computeVelocityByPriority tasks p) ∧
    (∀ (tasks : List Task) (p : Priority),
        velocityGroup tasks p
          = ((tasks.filter (fun t => t.completedAt.isSome && decide (t.priority = p))).map
              (fun t => max 0 (jsRound
                (((t.completedAt.elim 0 Timestamp.ms - t.createdAt : ℤ) : ℚ) / 86400000))))) ∧
    (∀ (tasks : List Task) (p : Priority),
        computeVelocityByPriority tasks p
          = if velocityGroup tasks p = [] then 0
            else ((velocityGroup tasks p).sum : ℚ) / (velocityGroup tasks p).length) ∧
    (∀ (tasks : List Task) (p : Priority),
        tasks.filter (fun t => t.completedAt.isSome && decide (t.priority = p)) = [] →
        computeVelocityByPriority tasks p = 0) := by
  have hgrp : ∀ (tasks : List Task) (p : Priority),
      velocityGroup tasks p
        = ((tasks.filter (fun t => t.completedAt.isSome && decide (t.priority = p))).map
            (fun t => max 0 (jsRound
              (((t.completedAt.elim 0 Timestamp.ms - t.createdAt : ℤ) : ℚ) / 86400000)))) := by
    intro tasks p
    induction tasks with
    | nil => rfl
    | cons t ts ih =>
        cases hc : t.completedAt with
        | none => simp [velocityGroup, List.filterMap_cons, List.filter_cons, hc] at ih ⊢; exact ih
        | some ts' =>
            by_cases hp : t.priority = p <;>
              simp [velocityGroup, List.filterMap_cons, List.filter_cons, hc, hp,
                daysBetween] at ih ⊢ <;>
              exact ih
  have havg : ∀ (tasks : List Task) (p : Priority),
      computeVelocityByPriority tasks p
        = if velocityGroup tasks p = [] then 0
          else ((velocityGroup tasks p).sum : ℚ) / (velocityGroup tasks p).length := by
    intro tasks p
    unfold computeVelocityByPriority average
    rw [foldl_add_int]
    rcases velocityGroup tasks p with _ | ⟨v, vs⟩ <;> simp
  have hnn : ∀ (tasks : List Task) (p : Priority),
      0 ≤ computeVelocityByPriority tasks p := by
    intro tasks p
    rw [havg]
    split_ifs with h
    · exact le_refl 0
    · apply div_nonneg _ (by positivity)
      have : ∀ v ∈ velocityGroup tasks p, (0 : ℤ) ≤ v := by
        intro v hv
        rw [hgrp] at hv
        rcases List.mem_map.mp hv with ⟨t, _, rfl⟩
        exact le_max_left 0 _
      exact_mod_cast List.sum_nonneg this
  refine ⟨hnn, hgrp, havg, fun tasks p hf => ?_⟩
  rw [havg, if_pos]
  rw [hgrp, hf]
  rfl

/-- Witness for C6: the empty collection reports 0 average days for the
`High` category. -/
theorem computeVelocityByPriority_spec_witness :
    computeVelocityByPriority [] Priority.High = 0 :=
  computeVelocityByPriority_spec.2.2.2 [] Priority.High rfl

/-! ## Throughput bucketing lemmas (C3, C10) -/

/-- Bumping key `k` adds one to the count stored under `k` and leaves every
other key's count unchanged. -/
theorem countIn_bumpWeek (m : List WeekBucket) (k kq : String) (r : ℚ) :
    countIn (bumpWeek m k r) kq = countIn m kq + (if k = kq then 1 else 0) := by
  induction m with
  | nil => simp [bumpWeek, countIn]
  | cons b rest ih =>
      by_cases hb : b.week = k
      · simp only [bumpWeek, if_pos hb, countIn, hb]
        split_ifs <;> omega
      · simp only [bumpWeek, if_neg hb, countIn, ih]
        omega

/-- Bumping key `k` adds `r` to the revenue stored under `k` and leaves
every other key's revenue unchanged. -/
theorem revIn_bumpWeek (m : List WeekBucket) (k kq : String) (r : ℚ) :
    revIn (bumpWeek m k r) kq = revIn m kq + (if k = kq then r else 0) := by
  induction m with
  | nil => simp [bumpWeek, revIn]
  | cons b rest ih =>
      by_cases hb : b.week = k
      · simp only [bumpWeek, if_pos hb, revIn, hb]
        split_ifs <;> ring
      · simp only [bumpWeek, if_neg hb, revIn, ih]
        ring

/-- Bumping updates an existing key in place and appends a new key. -/
theorem map_week_bumpWeek (m : List WeekBucket) (k : String) (r : ℚ) :
    (bumpWeek m k r).map WeekBucket.week
      = if k ∈ m.map WeekBucket.week then m.map WeekBucket.week
        else m.map WeekBucket.week ++ [k] := by
  induction m with
  | nil => simp [bumpWeek]
  | cons b rest ih =>
      by_cases hb : b.week = k
      · simp [bumpWeek, hb]
      · have hk : ¬ k = b.week := fun h => hb h.symm
        simp only [bumpWeek, if_neg hb, List.map_cons, ih, List.mem_cons]
        by_cases hmem : k ∈ rest.map WeekBucket.week <;> simp [hmem, hk]

/-- Bumping preserves distinctness of the stored keys. -/
theorem nodup_bumpWeek (m : List WeekBucket) (k : String) (r : ℚ)
    (h : (m.map WeekBucket.week).Nodup) :
    ((bumpWeek m k r).map WeekBucket.week).Nodup := by
  rw [map_week_bumpWeek]
  split_ifs with hk
  · exact h
  · simp [List.nodup_append, h, hk]

/-- Bumping preserves positivity of all stored counts. -/
theorem count_pos_bumpWeek (m : List WeekBucket) (k : String) (r : ℚ)
    (h : ∀ b ∈ m, 0 < b.count) :
    ∀ b ∈ bumpWeek m k r, 0 < b.count := by
  induction m with
  | nil =>
      intro b hb
      simp only [bumpWeek, List.mem_singleton] at hb
      subst hb
      simp
  | cons hd rest ih =>
      intro b hb
      by_cases hh : hd.week = k
      · simp only [bumpWeek, if_pos hh, List.mem_cons] at hb
        rcases hb with rfl | hb
        · simp
        · exact h b (List.mem_cons_of_mem hd hb)
      · simp only [bumpWeek, if_neg hh, List.mem_cons] at hb
        rcases hb with rfl | hb
        · exact h b (List.mem_cons_self b rest)
        · exact ih (fun x hx => h x (List.mem_cons_of_mem hd hx)) b hb

/-- A key not stored in the map has count 0. -/
theorem countIn_eq_zero (m : List WeekBucket) (k : String)
    (h : k ∉ m.map WeekBucket.week) : countIn m k = 0 := by
  induction m with
  | nil => rfl
  | cons b rest ih =>
      simp only [List.map_cons, List.mem_cons] at h
      push_neg at h
      simp only [countIn]
      rw [if_neg fun he => h.1 he.symm, ih h.2]

/-- A key not stored in the map has revenue 0. -/
theorem revIn_eq_zero (m : List WeekBucket) (k : String)
    (h : k ∉ m.map WeekBucket.week) : revIn m k = 0 := by
  induction m with
  | nil => rfl
  | cons b rest ih =>
      simp only [List.map_cons, List.mem_cons] at h
      push_neg at h
      simp only [revIn]
      rw [if_neg fun he => h.1 he.symm, ih h.2, add_zero]

/-- With distinct keys, a stored bucket's fields are exactly the map's
accumulated count and revenue for its key. -/
theorem fields_eq_of_mem (m : List WeekBucket) (hm : (m.map WeekBucket.week).Nodup)
    (b : WeekBucket) (hb : b ∈ m) :
    b.count = countIn m b.week ∧ b.revenue = revIn m b.week := by
  induction m with
  | nil => cases hb
  | cons hd rest ih =>
      rw [List.map_cons, List.nodup_cons] at hm
      rcases List.mem_cons.mp hb with rfl | hb'
      · simp [countIn, revIn, countIn_eq_zero rest b.week hm.1, revIn_eq_zero rest b.week hm.1]
      · have hne : hd.week ≠ b.week := by
          intro he
          exact hm.1 (he ▸ List.mem_map_of_mem WeekBucket.week hb')
        simpa [countIn, revIn, hne] using ih hm.2 hb'

/-- A key with positive accumulated count is stored in the map. -/
theorem exists_of_countIn_pos (m : List WeekBucket) (k : String)
    (h : 0 < countIn m k) : ∃ b ∈ m, b.week = k := by
  induction m with
  | nil => simp [countIn] at h
  | cons hd rest ih =>
      by_cases hh : hd.week = k
      · exact ⟨hd, List.mem_cons_self hd rest, hh⟩
      · simp only [countIn, if_neg hh, Nat.zero_add] at h
        rcases ih h with ⟨b, hb, hbk⟩
        exact ⟨b, List.mem_cons_of_mem hd hb, hbk⟩

/-- Folding the remaining tasks adds, per key, exactly the number of
matching completed tasks and their revenue. -/
theorem foldl_throughStep_spec (tasks : List Task) (m : List WeekBucket) (k : String) :
    countIn (tasks.foldl throughStep m) k = countIn m k + weekCount tasks k ∧
    revIn (tasks.foldl throughStep m) k = revIn m k + weekRevenue tasks k := by
  induction tasks generalizing m with
  | nil => simp [weekCount, weekRevenue]
  | cons t ts ih =>
      rw [List.foldl_cons]
      cases hc : t.completedAt with
      | none =>
          have hstep : throughStep m t = m := by simp [throughStep, hc]
          have hfil : decide (taskWeekKey t = some k) = false := by
            simp [taskWeekKey, hc]
          constructor
          · rw [hstep, (ih m).1, weekCount, weekCount, List.filter_cons, hfil]
            simp
          · rw [hstep, (ih m).2, weekRevenue, weekRevenue, List.filter_cons, hfil]
            simp
      | some ts' =>
          have hstep : throughStep m t = bumpWeek m (weekKey ts'.date) t.revenue := by
            simp [throughStep, hc]
          have hfil : decide (taskWeekKey t = some k) = decide (weekKey ts'.date = k) := by
            simp [taskWeekKey, hc]
          have hcnt := (ih (bumpWeek m (weekKey ts'.date) t.revenue)).1
          have hrev := (ih (bumpWeek m (weekKey ts'.date) t.revenue)).2
          constructor
          · rw [hstep, hcnt, countIn_bumpWeek, weekCount, weekCount, List.filter_cons, hfil]
            by_cases hk : weekKey ts'.date = k
            · simp [hk]
              omega
            · simp [hk]
          · rw [hstep, hrev, revIn_bumpWeek, weekRevenue, weekRevenue, List.filter_cons, hfil]
            by_cases hk : weekKey ts'.date = k
            · simp [hk]
              ring
            · simp [hk]

/-- Folding preserves distinctness of the stored keys. -/
theorem foldl_throughStep_nodup (tasks : List Task) (m : List WeekBucket)
    (h : (m.map WeekBucket.week).Nodup) :
    (((tasks.foldl throughStep m).map WeekBucket.week)).Nodup := by
  induction tasks generalizing m with
  | nil => exact h
  | cons t ts ih =>
      rw [List.foldl_cons]
      cases hc : t.completedAt with
      | none => rw [show throughStep m t = m by simp [throughStep, hc]]; exact ih m h
      | some ts' =>
          rw [show throughStep m t = bumpWeek m (weekKey ts'.date) t.revenue by
            simp [throughStep, hc]]
          exact ih _ (nodup_bumpWeek m _ _ h)

/-- Folding preserves positivity of all stored counts. -/
theorem foldl_throughStep_pos (tasks : List Task) (m : List WeekBucket)
    (h : ∀ b ∈ m, 0 < b.count) :
    ∀ b ∈ tasks.foldl throughStep m, 0 < b.count := by
  induction tasks generalizing m with
  | nil => exact h
  | cons t ts ih =>
      rw [List.foldl_cons]
      cases hc : t.completedAt with
      | none => rw [show throughStep m t = m by simp [throughStep, hc]]; exact ih m h
      | some ts' =>
          rw [show throughStep m t = bumpWeek m (weekKey ts'.date) t.revenue by
            simp [throughStep, hc]]
          exact ih _ (count_pos_bumpWeek m _ _ h)

/-- `getUTCDay() || 7` equals the ISO day-of-week formula `1 + ((z+3) mod 7)`
(Monday = 1 … Sunday = 7). -/
theorem jsDow_eq_isoDow (z : ℤ) :
    (if (z + 4) % 7 = 0 then 7 else (z + 4) % 7) = (z + 3) % 7 + 1 := by
  omega

/-- `Math.ceil(a / 7)` on an exact integer ratio, as integer arithmetic:
the ceiling of `a / 7` is the euclidean quotient `(a + 6) / 7`. -/
theorem intCeil_div7 (a : ℤ) : ⌈((a : ℚ) / 7)⌉ = (a + 6) / 7 := by
  rw [Int.ceil_eq_iff]
  constructor
  · rw [lt_div_iff₀ (by norm_num : (0:ℚ) < 7)]
    exact_mod_cast (by omega : ((a + 6) / 7 - 1) * 7 < a)
  · rw [div_le_iff₀ (by norm_num : (0:ℚ) < 7)]
    exact_mod_cast (by omega : a ≤ (a + 6) / 7 * 7)

/-- Away from ECMAScript's two-digit-year remap -- when neither the
date's own year nor the year of its week's Thursday lies in 0-99 -- the
source's `getWeekNumber` is the ISO-8601 Thursday-anchored week number.
Inside that range `Date.UTC` rebuilds the date in 1900-1999, so the two
disagree (see the counterexample below). -/
theorem getWeekNumber_eq_isoWeekNumber (c : CivilDate)
    (h1 : ¬(0 ≤ c.year ∧ c.year ≤ 99))
    (h2 : ¬(0 ≤ (civilFromDays (isoThursday c)).year ∧
            (civilFromDays (isoThursday c)).year ≤ 99)) :
    getWeekNumber c = isoWeekNumber c := by
  simp only [isoThursday] at h2
  simp only [getWeekNumber, isoWeekNumber, isoThursday, dateUTCDays, makeFullYear]
  rw [if_neg h1, jsDow_eq_isoDow, if_neg h2]

/-! ## C3: computeThroughputByWeek bucketing -/

/-- C3 (amended): each task with a defined `completedAt` lands in exactly
one bucket, every bucket's count and revenue are exactly the number and
total revenue of its matching tasks, tasks without `completedAt` contribute
nothing, and the output holds exactly the keys with at least one task, each
once.  The bucket key is `"{year}-W{week}"` where `week` is the ISO-8601
(Thursday-anchored) week number of `completedAt` whenever neither the
completion date's year nor the year of its week's Thursday lies in 0-99;
for those years ECMAScript's `Date.UTC` remap (year 0-99 to 1900+year)
makes the code's week number diverge from the ISO week number. -/
theorem computeThroughputByWeek_spec :
    (∀ tasks : List Task, ((computeThroughputByWeek tasks).map WeekBucket.week).Nodup) ∧
    (∀ (tasks : List Task) (b : WeekBucket),
        b ∈ computeThroughputByWeek tasks ↔
          (0 < weekCount tasks b.week ∧ b.count = weekCount tasks b.week ∧
            b.revenue = weekRevenue tasks b.week)) ∧
    (∀ c : CivilDate,
        ¬(0 ≤ c.year ∧ c.year ≤ 99) →
        ¬(0 ≤ (civilFromDays (isoThursday c)).year ∧
            (civilFromDays (isoThursday c)).year ≤ 99) →
        getWeekNumber c = isoWeekNumber c) ∧
    (∀ c : CivilDate,
        ¬(0 ≤ c.year ∧ c.year ≤ 99) →
        ¬(0 ≤ (civilFromDays (isoThursday c)).year ∧
            (civilFromDays (isoThursday c)).year ≤ 99) →
        weekKey c = toString c.year ++ "-W" ++ toString (isoWeekNumber c)) := by
  have hnodup : ∀ tasks : List Task,
      ((computeThroughputByWeek tasks).map WeekBucket.week).Nodup := fun tasks =>
    foldl_throughStep_nodup tasks [] List.nodup_nil
  have hpos : ∀ tasks : List Task, ∀ b ∈ computeThroughputByWeek tasks, 0 < b.count :=
    fun tasks => foldl_throughStep_pos tasks [] (fun b hb => absurd hb (List.not_mem_nil b))
  have hcnt : ∀ (tasks : List Task) (k : String),
      countIn (computeThroughputByWeek tasks) k = weekCount tasks k := fun tasks k => by
    have := (foldl_throughStep_spec tasks [] k).1
    simpa [computeThroughputByWeek, countIn] using this
  have hrev : ∀ (tasks : List Task) (k : String),
      revIn (computeThroughputByWeek tasks) k = weekRevenue tasks k := fun tasks k => by
    have := (foldl_throughStep_spec tasks [] k).2
    simpa [computeThroughputByWeek, revIn] using this
  refine ⟨hnodup, fun tasks b => ⟨fun hb => ?_, fun ⟨hp, hc, hr⟩ => ?_⟩,
    getWeekNumber_eq_isoWeekNumber, fun c h1 h2 => by
      rw [weekKey, getWeekNumber_eq_isoWeekNumber c h1 h2]⟩
  · obtain ⟨h1, h2⟩ := fields_eq_of_mem _ (hnodup tasks) b hb
    rw [hcnt] at h1
    rw [hrev] at h2
    exact ⟨h1 ▸ hpos tasks b hb, h1, h2⟩
  · have : 0 < countIn (computeThroughputByWeek tasks) b.week := by rw [hcnt]; exact hp
    obtain ⟨b', hb', hbk⟩ := exists_of_countIn_pos _ _ this
    obtain ⟨h1, h2⟩ := fields_eq_of_mem _ (hnodup tasks) b' hb'
    have hbeq : b = b' := by
      cases b
      cases b'
      simp only at hbk h1 h2 ⊢
      subst hbk
      rw [hcnt] at h1
      rw [hrev] at h2
      simp_all
    exact hbeq ▸ hb'

/-- Counterexample to C3 as stated: a task completed on civil date
0004-01-03 is bucketed under `"4-W53"` -- `Date.UTC(4, 0, 3)` rebuilds the
date as 1904-01-03, a Sunday anchored to Thursday 1903-12-31, ordinal day
365 -- although the ISO-8601 week number of 0004-01-03 (a Saturday) is 1,
so the bucket's week is not the ISO week number of `completedAt`. -/
theorem computeThroughputByWeek_counterexample :
    computeThroughputByWeek
        [⟨"t1", "T", 5, 1, Priority.High, Status.Done, "", 0, some ⟨0, ⟨4, 1, 3⟩⟩⟩]
      = [⟨"4-W53", 1, 5⟩] ∧
    isoWeekNumber ⟨4, 1, 3⟩ = 1 ∧
    getWeekNumber ⟨4, 1, 3⟩ ≠ isoWeekNumber ⟨4, 1, 3⟩ := by
  have hg : getWeekNumber ⟨4, 1, 3⟩ = 53 := by
    simp only [getWeekNumber]
    rw [intCeil_div7]
    decide
  have hiso : isoWeekNumber ⟨4, 1, 3⟩ = 1 := by
    simp only [isoWeekNumber]
    rw [intCeil_div7]
    decide
  have hkey : weekKey ⟨4, 1, 3⟩ = "4-W53" := by
    rw [weekKey, hg]
    rfl
  have hbucket : computeThroughputByWeek
        [⟨"t1", "T", 5, 1, Priority.High, Status.Done, "", 0, some ⟨0, ⟨4, 1, 3⟩⟩⟩]
      = [⟨weekKey ⟨4, 1, 3⟩, 1, 5⟩] := rfl
  refine ⟨by rw [hbucket, hkey], hiso, by rw [hg, hiso]; decide⟩

/-- Witness for C3 (amended), at 2021-01-01: the year 2021 and its week's
Thursday year 2020 are outside the remap range, and the key is the
calendar year with the ISO week number 53. -/
theorem computeThroughputByWeek_spec_witness :
    weekKey ⟨2021, 1, 1⟩
      = toString (2021 : ℤ) ++ "-W" ++ toString (isoWeekNumber ⟨2021, 1, 1⟩) :=
  computeThroughputByWeek_spec.2.2.2 ⟨2021, 1, 1⟩ (by decide) (by decide)

/-! ## C10: throughput conservation -/

/-- Bumping adds one to the total count and `r` to the total revenue. -/
theorem total_bumpWeek (m : List WeekBucket) (k : String) (r : ℚ) :
    ((bumpWeek m k r).map WeekBucket.count).sum = (m.map WeekBucket.count).sum + 1 ∧
    ((bumpWeek m k r).map WeekBucket.revenue).sum = (m.map WeekBucket.revenue).sum + r := by
  induction m with
  | nil => simp [bumpWeek]
  | cons b rest ih =>
      by_cases hb : b.week = k
      · simp only [bumpWeek, if_pos hb, List.map_cons, List.sum_cons]
        constructor
        · omega
        · ring
      · simp only [bumpWeek, if_neg hb, List.map_cons, List.sum_cons, ih.1, ih.2]
        constructor
        · omega
        · ring

/-- C10: the bucket counts sum to the number of tasks with a defined
`completedAt`, and the bucket revenues sum to those tasks' total revenue. -/
theorem computeThroughputByWeek_conserves (tasks : List Task) :
    ((computeThroughputByWeek tasks).map WeekBucket.count).sum
        = (tasks.filter (fun t => t.completedAt.isSome)).length ∧
    ((computeThroughputByWeek tasks).map WeekBucket.revenue).sum
        = ((tasks.filter (fun t => t.completedAt.isSome)).map Task.revenue).sum := by
  suffices h : ∀ (ts : List Task) (m : List WeekBucket),
      ((ts.foldl throughStep m).map WeekBucket.count).sum
          = (m.map WeekBucket.count).sum + (ts.filter (fun t => t.completedAt.isSome)).length ∧
      ((ts.foldl throughStep m).map WeekBucket.revenue).sum
          = (m.map WeekBucket.revenue).sum
              + ((ts.filter (fun t => t.completedAt.isSome)).map Task.revenue).sum by
    have := h tasks []
    simpa [computeThroughputByWeek] using this
  intro ts
  induction ts with
  | nil => intro m; simp
  | cons t ts ih =>
      intro m
      rw [List.foldl_cons]
      cases hc : t.completedAt with
      | none =>
          rw [show throughStep m t = m by simp [throughStep, hc]]
          simpa [List.filter_cons, hc] using ih m
      | some ts' =>
          rw [show throughStep m t = bumpWeek m (weekKey ts'.date) t.revenue by
            simp [throughStep, hc]]
          obtain ⟨ihc, ihr⟩ := ih (bumpWeek m (weekKey ts'.date) t.revenue)
          obtain ⟨tc, tr⟩ := total_bumpWeek m (weekKey ts'.date) t.revenue
          constructor
          · rw [ihc, tc]
            simp [List.filter_cons, hc]
            omega
          · rw [ihr, tr]
            simp [List.filter_cons, hc]
            ring

/-! ## Sort comparator lemmas (C2) -/

/-- The non-strict comparator order is the lexicographic order on the
sort key. -/
theorem sortLe_iff_sortKey (a b : DerivedTask) :
    sortLe a b = true ↔ sortKey a ≤ sortKey b := by
  unfold sortLe sortKey
  simp only [Prod.Lex.le_iff, Prod.Lex.lt_iff, OrderDual.toDual_lt_toDual,
    OrderDual.toDual_le_toDual, OrderDual.toDual_inj]
  split_ifs with h1 h2
  · simp only [decide_eq_true_eq]
    exact ⟨Or.inl, fun h => h.elim id fun he => absurd he.1.symm h1⟩
  · push_neg at h1
    simp only [decide_eq_true_eq]
    constructor
    · intro h
      exact Or.inr ⟨h1.symm, Or.inl h⟩
    · rintro (h | ⟨-, h | ⟨he, -⟩⟩)
      · exact absurd (h1 ▸ h) (lt_irrefl _)
      · exact h
      · exact absurd he.symm h2
  · push_neg at h1 h2
    simp only [decide_eq_true_eq]
    constructor
    · intro h
      exact Or.inr ⟨h1.symm, Or.inr ⟨h2.symm, h⟩⟩
    · rintro (h | ⟨-, h | ⟨-, h⟩⟩)
      · exact absurd (h1 ▸ h) (lt_irrefl _)
      · exact absurd (h2 ▸ h) (lt_irrefl _)
      · exact h

/-- The strict comparator order is the strict lexicographic order on the
sort key. -/
theorem sortLt_iff_sortKey (a b : DerivedTask) :
    sortLt a b = true ↔ sortKey a < sortKey b := by
  unfold sortLt sortKey
  simp only [Prod.Lex.lt_iff, OrderDual.toDual_lt_toDual, OrderDual.toDual_inj]
  split_ifs with h1 h2
  · simp only [decide_eq_true_eq]
    exact ⟨Or.inl, fun h => h.elim id fun he => absurd he.1.symm h1⟩
  · push_neg at h1
    simp only [decide_eq_true_eq]
    constructor
    · intro h
      exact Or.inr ⟨h1.symm, Or.inl h⟩
    · rintro (h | ⟨-, h | ⟨he, -⟩⟩)
      · exact absurd (h1 ▸ h) (lt_irrefl _)
      · exact h
      · exact absurd he.symm h2
  · push_neg at h1 h2
    simp only [decide_eq_true_eq]
    constructor
    · intro h
      exact Or.inr ⟨h1.symm, Or.inr ⟨h2.symm, h⟩⟩
    · rintro (h | ⟨-, h | ⟨-, h⟩⟩)
      · exact absurd (h1 ▸ h) (lt_irrefl _)
      · exact absurd (h2 ▸ h) (lt_irrefl _)
      · exact h

/-! ## C2: sortTasks -/

/-- C2: `sortTasks` returns a permutation of its input, ordered by the
cascade ROI descending (null last), then `priorityWeight` descending, then
`title` ascending; the comparator is a strict weak ordering (irreflexive,
transitive, with transitive incomparability), and sorting is idempotent.
The embedding is pure, so the input list is unchanged by construction. -/
theorem sortTasks_spec :
    (∀ l : List DerivedTask, (sortTasks l).Perm l) ∧
    (∀ l : List DerivedTask, List.Sorted (fun a b => sortLe a b = true) (sortTasks l)) ∧
    (∀ l : List DerivedTask, sortTasks (sortTasks l) = sortTasks l) ∧
    (∀ a b : DerivedTask, sortLe a b = true ↔
      (roiKey b < roiKey a ∨ (roiKey a = roiKey b ∧
        (b.priorityWeight < a.priorityWeight ∨
          (a.priorityWeight = b.priorityWeight ∧ a.title ≤ b.title))))) ∧
    (∀ a b : DerivedTask, sortLt a b = true ↔
      (roiKey b < roiKey a ∨ (roiKey a = roiKey b ∧
        (b.priorityWeight < a.priorityWeight ∨
          (a.priorityWeight = b.priorityWeight ∧ a.title < b.title))))) ∧
    (∀ a : DerivedTask, sortLt a a = false) ∧
    (∀ a b c : DerivedTask,
      sortLt a b = true → sortLt b c = true → sortLt a c = true) ∧
    (∀ a b c : DerivedTask,
      sortLt a b = false → sortLt b a = false → sortLt b c = false → sortLt c b = false →
      sortLt a c = false ∧ sortLt c a = false) := by
  haveI hTot : IsTotal DerivedTask (fun a b => sortLe a b = true) :=
    ⟨fun a b => by
      rw [sortLe_iff_sortKey, sortLe_iff_sortKey]
      exact le_total _ _⟩
  haveI hTrans : IsTrans DerivedTask (fun a b => sortLe a b = true) :=
    ⟨fun a b c hab hbc => by
      rw [sortLe_iff_sortKey] at hab hbc ⊢
      exact le_trans hab hbc⟩
  have hfalse : ∀ x y : DerivedTask, sortLt x y = false ↔ ¬ sortKey x < sortKey y := by
    intro x y
    constructor
    · intro h hlt
      rw [(sortLt_iff_sortKey x y).mpr hlt] at h
      cases h
    · intro h
      cases hxy : sortLt x y with
      | false => rfl
      | true => exact absurd ((sortLt_iff_sortKey x y).mp hxy) h
  refine ⟨fun l => List.perm_insertionSort _ l,
    fun l => List.sorted_insertionSort _ l,
    fun l => List.Sorted.insertionSort_eq (List.sorted_insertionSort _ l),
    fun a b => by
      rw [sortLe_iff_sortKey]
      unfold sortKey
      simp [Prod.Lex.le_iff, Prod.Lex.lt_iff],
    fun a b => by
      rw [sortLt_iff_sortKey]
      unfold sortKey
      simp [Prod.Lex.lt_iff],
    fun a => (hfalse a a).mpr (lt_irrefl _),
    fun a b c hab hbc =>
      (sortLt_iff_sortKey a c).mpr
        (lt_trans ((sortLt_iff_sortKey a b).mp hab) ((sortLt_iff_sortKey b c).mp hbc)),
    fun a b c h1 h2 h3 h4 => ?_⟩
  have hab : sortKey a = sortKey b :=
    le_antisymm (not_lt.mp ((hfalse b a).mp h2)) (not_lt.mp ((hfalse a b).mp h1))
  have hbc : sortKey b = sortKey c :=
    le_antisymm (not_lt.mp ((hfalse c b).mp h4)) (not_lt.mp ((hfalse b c).mp h3))
  constructor
  · exact (hfalse a c).mpr (by rw [hab, hbc]; exact lt_irrefl _)
  · exact (hfalse c a).mpr (by rw [hab, hbc]; exact lt_irrefl _)

/-- Witness for C2: concrete transitivity instance of the strict
comparator, and a concrete permutation instance. -/
theorem sortTasks_spec_witness :
    sortLt ⟨"1", "A", 100, 10, Priority.High, Status.Done, "", 0, none, some 10, 3⟩
        ⟨"3", "C", 0, 1, Priority.Low, Status.Todo, "", 0, none, none, 1⟩ = true ∧
    (sortTasks
        [⟨"3", "C", 0, 1, Priority.Low, Status.Todo, "", 0, none, none, 1⟩,
          ⟨"1", "A", 100, 10, Priority.High, Status.Done, "", 0, none, some 10, 3⟩]).Perm
      [⟨"3", "C", 0, 1, Priority.Low, Status.Todo, "", 0, none, none, 1⟩,
        ⟨"1", "A", 100, 10, Priority.High, Status.Done, "", 0, none, some 10, 3⟩] :=
  ⟨sortTasks_spec.2.2.2.2.2.2.1
      ⟨"1", "A", 100, 10, Priority.High, Status.Done, "", 0, none, some 10, 3⟩
      ⟨"2", "B", 50, 25, Priority.Low, Status.Done, "", 0, none, some 2, 1⟩
      ⟨"3", "C", 0, 1, Priority.Low, Status.Todo, "", 0, none, none, 1⟩
      (by decide) (by decide),
    sortTasks_spec.1 _⟩

end TaskGlitch
